import Mathlib

/-!
Verification of the ASL schema-registry core (`asl/core/delta.py`,
`asl/core/registry.py`) against its natural-language specification.

The embedding models:
* Python dicts as insertion-ordered association lists (`dinsert` assigns with
  Python's replace-in-place-or-append semantics, `derase` is `del`,
  `alookup` is `d[k]` lookup);
* Python string comparison (used by `sorted()` in the registry) as
  code-point-lexicographic comparison `lexLe`/`pyLe`;
* the values flowing through records as the closed type `Value`
  (strings, ints, lists, dicts — the shapes the core manipulates);
* transformation-expression strings by their parsed abstract syntax
  (`PyExpr`); the correspondence between the textual operations of
  `SchemaDelta.apply` (membership tests of the expression text in the record,
  textual substitution of field names) and the AST-level operations holds for
  records whose keys are Python identifiers not named `data`, `split` or
  `concat`, which is the domain the spec describes;
* exceptions as the `Except` monad: `PyExc` for the exceptions arising inside
  `apply`'s `try` block, `PyError` (a `ValueError` with its message) for the
  exceptions the core raises to callers.

Expression evaluation uses a fuel parameter set to Python's recursion limit
(1000), decremented once per level of the expression tree, so that every
definition is structurally recursive and kernel-computable; the
`recursionError` branch mirrors Python's `RecursionError` and is unreachable
for the shallow expressions the repository uses.
-/

namespace ASL

/-- Code-point lexicographic comparison of character lists: the order Python
uses to compare strings (and hence the order `sorted()` sorts by). -/
def lexLe : List Char → List Char → Bool
  | [], _ => true
  | _ :: _, [] => false
  | a :: as, b :: bs =>
    if a.toNat < b.toNat then true
    else if b.toNat < a.toNat then false
    else lexLe as bs

/-- Python string `<=` (lexicographic by code point). -/
def pyLe (a b : String) : Bool := lexLe a.data b.data

/-- Python string `<` (strict part of `pyLe`). -/
def pyLt (a b : String) : Bool := !pyLe b a

/-- Association-list lookup: Python `d.get(k)`. -/
def alookup {α : Type} : List (String × α) → String → Option α
  | [], _ => none
  | (k', v) :: rest, k => if k' = k then some v else alookup rest k

/-- Python `k in d`. -/
def containsKey {α : Type} (l : List (String × α)) (k : String) : Bool :=
  (alookup l k).isSome

/-- The key list of a dict, in insertion order: Python `list(d.keys())`. -/
def dkeys {α : Type} (l : List (String × α)) : List String := l.map Prod.fst

/-- Python dict assignment `d[k] = v`: replaces the value in place if the key
exists, otherwise appends at the end. -/
def dinsert {α : Type} : List (String × α) → String → α → List (String × α)
  | [], k, v => [(k, v)]
  | (k', v') :: rest, k, v =>
    if k' = k then (k, v) :: rest else (k', v') :: dinsert rest k v

/-- Python `del d[k]` (removes the unique entry for `k`). -/
def derase {α : Type} : List (String × α) → String → List (String × α)
  | [], _ => []
  | (k', v') :: rest, k => if k' = k then rest else (k', v') :: derase rest k

/-- The values a record may hold: the closed universe the core manipulates. -/
inductive Value where
  | str (s : String)
  | int (n : Int)
  | list (elems : List Value)
  | dict (entries : List (String × Value))

/-- A data record: a Python dict from field names to values. -/
abbrev Record := List (String × Value)

/-- Python's default recursion limit (`sys.getrecursionlimit()`): structures
or expressions nested deeper than this raise `RecursionError` in the source;
the model uses it as the fuel bound of its recursive evaluators. -/
def RECURSION_LIMIT : Nat := 1000

/-- Fueled rendering of a value: Python `str(v)` when `quoted` is `false`,
Python `repr(v)` (strings quoted) when `quoted` is `true`; container elements
render with `repr`. -/
def pyToStrN : Nat → Bool → Value → String
  | 0, _, _ => ""
  | n + 1, quoted, v =>
    match v with
    | .str s => if quoted then "'" ++ s ++ "'" else s
    | .int i => toString i
    | .list vs => "[" ++ String.intercalate ", " (vs.map (pyToStrN n true)) ++ "]"
    | .dict es =>
      "\x7b" ++
        String.intercalate ", "
          (es.map fun p => "'" ++ p.1 ++ "': " ++ pyToStrN n true p.2) ++ "\x7d"

/-- Python `str(v)` for the values of the model (used by `concat`'s
`''.join(str(arg) ...)`). -/
def pyStr (v : Value) : String := pyToStrN RECURSION_LIMIT false v

/-- Abstract syntax of a transformation-expression string, as produced by
`ast.parse(expr, mode='eval')` in `SchemaDelta.apply` (delta.py line 50).
`call` covers `ast.Call` nodes whose callee is a plain name (line 55 reads
`tree.body.func.id`, so only those reach the call branch); `index` covers
subscripts with a literal non-negative integer index, the only subscript shape
the repository's expressions use. -/
inductive PyExpr where
  | name (s : String)
  | strLit (s : String)
  | intLit (n : Int)
  | call (fn : String) (args : List PyExpr)
  | index (e : PyExpr) (i : Nat)

/-- The Python exceptions that can arise inside `apply`'s `try` block. -/
inductive PyExc where
  | keyError (k : String)
  | nameError (n : String)
  | typeError (msg : String)
  | indexError (msg : String)
  | valueErrorExc (msg : String)
  | recursionError

/-- Python `str(e)` for the exceptions of the model (used when `apply` wraps
the caught exception into its `ValueError` message). -/
def pyExcMsg : PyExc → String
  | .keyError k => "'" ++ k ++ "'"
  | .nameError n => "name '" ++ n ++ "' is not defined"
  | .typeError m => m
  | .indexError m => m
  | .valueErrorExc m => m
  | .recursionError => "maximum recursion depth exceeded"

/-- Errors the core raises to its callers: every error in these modules is a
`ValueError` carrying a message. -/
inductive PyError where
  | valueError (msg : String)

/-- Whether `l` begins with the pattern `sep`. -/
def chStartsWith : List Char → List Char → Bool
  | [], _ => true
  | _ :: _, [] => false
  | a :: as, b :: bs => a = b && chStartsWith as bs

/-- Fueled scanner for Python `str.split(sep)` with non-empty `sep`: each step
consumes at least one character, so fuel `length + 1` always suffices. -/
def splitLoop (sep : List Char) : Nat → List Char → List Char → List (List Char)
  | 0, l, acc => [acc.reverse ++ l]
  | _ + 1, [], acc => [acc.reverse]
  | n + 1, c :: rest, acc =>
    if chStartsWith sep (c :: rest) then
      acc.reverse :: splitLoop sep n (List.drop (sep.length - 1) rest) []
    else
      splitLoop sep n rest (c :: acc)

/-- Python `s.split(sep)` for a non-empty separator: splits at every
occurrence, keeping empty pieces. -/
def pySplitSep (s sep : String) : List String :=
  (splitLoop sep.data (s.data.length + 1) s.data []).map fun cs => String.mk cs

/-- Python `s.split()` (no separator): splits on whitespace runs, discarding
leading and trailing whitespace. -/
def wsSplit : List Char → List Char → List (List Char)
  | [], acc => if acc.isEmpty then [] else [acc.reverse]
  | c :: rest, acc =>
    if c.isWhitespace then
      if acc.isEmpty then wsSplit rest [] else acc.reverse :: wsSplit rest []
    else wsSplit rest (c :: acc)

/-- The callable entries of `safe_env` in `SchemaDelta.apply`
(delta.py lines 43-47): `data` (the record itself), `str.split`, and the
`concat` lambda. -/
inductive SafeFn where
  | data
  | split
  | concat

/-- `safe_env[func_name]`: `some` for the three keys of the environment,
`none` (Python `KeyError`) otherwise. -/
def safeEnvLookup (fn : String) : Option SafeFn :=
  if fn = "data" then some .data
  else if fn = "split" then some .split
  else if fn = "concat" then some .concat
  else none

/-- Applying `str.split`: one string argument splits on whitespace, two string
arguments split on the (non-empty) separator; anything else is a
`TypeError`/`ValueError` exactly as in Python. -/
def applySplit : List Value → Except PyExc Value
  | [.str s] => .ok (.list ((wsSplit s.data []).map fun cs => .str (String.mk cs)))
  | [.str s, .str sep] =>
    if sep = "" then .error (.valueErrorExc "empty separator")
    else .ok (.list ((pySplitSep s sep).map .str))
  | [_] | [_, _] => .error (.typeError "descriptor 'split' requires a 'str' object")
  | _ => .error (.typeError "split expected at most 2 arguments")

/-- Applying the `concat` lambda: `''.join(str(arg) for arg in args)`. -/
def applyConcat (vs : List Value) : Except PyExc Value :=
  .ok (.str (vs.foldl (fun acc v => acc ++ pyStr v) ""))

/-- Python subscripting `v[i]` for a literal non-negative index. -/
def valueIndex (v : Value) (i : Nat) : Except PyExc Value :=
  match v with
  | .list vs =>
    match vs.get? i with
    | some w => .ok w
    | none => .error (.indexError "list index out of range")
  | .str s =>
    match s.data.get? i with
    | some c => .ok (.str (String.mk [c]))
    | none => .error (.indexError "string index out of range")
  | .dict _ => .error (.keyError (toString i))
  | .int _ => .error (.typeError "'int' object is not subscriptable")

/-- The value of a record key (only used under a `containsKey` guard). -/
def getVal (od : Record) (k : String) : Value := (alookup od k).getD (.str "")

/-- Fueled evaluator modelling
`eval(text, {"__builtins__": {}}, safe_env)` over the parsed expression.

When `sub` is `true` the expression text has undergone the key-for-`data[key]`
textual substitution of delta.py lines 74-76, so a name that is a record key
resolves to the record's value; when `sub` is `false` the text is evaluated
raw (the per-argument path of lines 59-64), so such a name is undefined.
In both modes the names `data`, `split` and `concat` resolve through
`safe_env`; every other name raises `NameError`. A call resolves its callee
first (Python evaluates the callee before the arguments), then evaluates the
arguments left to right, then applies. `data` is a dict and is not
callable. -/
def evalPyN (sub : Bool) (od : Record) : Nat → PyExpr → Except PyExc Value
  | 0, _ => .error .recursionError
  | _ + 1, .name s =>
    if sub && containsKey od s then .ok (getVal od s)
    else if s = "data" then .ok (.dict od)
    else .error (.nameError s)
  | _ + 1, .strLit s => .ok (.str s)
  | _ + 1, .intLit n => .ok (.int n)
  | n + 1, .call fn args =>
    match safeEnvLookup fn with
    | none => .error (.nameError fn)
    | some sf => do
      let vs ← args.mapM (evalPyN sub od n)
      match sf with
      | .data => .error (.typeError "'dict' object is not callable")
      | .split => applySplit vs
      | .concat => applyConcat vs
  | n + 1, .index e i => do
    let v ← evalPyN sub od n e
    valueIndex v i

/-- Evaluator wrapper with the interpreter's recursion limit as fuel: fuel
decreases only when descending one level of the expression tree, so any
expression nested less deeply than `RECURSION_LIMIT` (every expression in the
repository) evaluates without hitting the `recursionError` branch. -/
def evalPy (sub : Bool) (od : Record) (e : PyExpr) : Except PyExc Value :=
  evalPyN sub od RECURSION_LIMIT e

/-- One processed argument of the top-level-call branch of `apply`
(delta.py lines 59-64): an argument whose unparsed text is exactly a key of
`old_data` becomes `data["key"]`; any other argument text is evaluated raw. -/
def evalArgA (od : Record) (a : PyExpr) : Except PyExc Value :=
  match a with
  | .name k => if containsKey od k then .ok (getVal od k) else evalPy false od a
  | _ => evalPy false od a

/-- Evaluation of one transformation expression against `old_data`, following
the branch structure of `SchemaDelta.apply` (delta.py lines 50-77):
if the parsed body is a call, look up the callee in `safe_env`
(`KeyError` when absent — line 67), evaluate the processed arguments, apply;
otherwise, if the expression text is a key of `old_data`, return that field's
value (lines 70-71); otherwise substitute every key textually and evaluate the
result (lines 73-77). -/
def evalTransform (od : Record) (e : PyExpr) : Except PyExc Value :=
  match e with
  | .call fn args =>
    match safeEnvLookup fn with
    | none => .error (.keyError fn)
    | some sf => do
      let vs ← args.mapM (evalArgA od)
      match sf with
      | .data => .error (.typeError "'dict' object is not callable")
      | .split => applySplit vs
      | .concat => applyConcat vs
  | .name k => if containsKey od k then .ok (getVal od k) else evalPy true od (.name k)
  | e => evalPy true od e

/-- Metadata values: the `str | int | bool` scalars of the `metadata` mapping
(floating-point metadata is outside the model; no claim involves metadata). -/
inductive MVal where
  | str (s : String)
  | int (n : Int)
  | bool (b : Bool)

/-- `SchemaDelta` (delta.py lines 12-25): added/removed field-to-type-tag
mappings, transformation expressions per output field, and free metadata. -/
structure SchemaDelta where
  added_fields : List (String × String) := []
  removed_fields : List (String × String) := []
  transformations : List (String × PyExpr) := []
  metadata : List (String × MVal) := []

instance : Inhabited SchemaDelta := ⟨{}⟩

/-- The `ValueError` message `apply` raises when a transformation fails
(delta.py line 79). -/
def transformErrMsg (field : String) (e : PyExc) : String :=
  "Error evaluating transformation for field " ++ field ++ ": " ++ pyExcMsg e

/-- The removal loop shared by `apply` (delta.py lines 35-37) and
`transform_data` (registry.py lines 145-147, 160-162):
`for field in removed_fields: if field in result: del result[field]`. -/
def removeFields (fs : List (String × String)) (r : Record) : Record :=
  fs.foldl (fun acc p => if containsKey acc p.1 then derase acc p.1 else acc) r

/-- One iteration of `apply`'s transformation loop (delta.py lines 40-79):
evaluate the field's expression against `old_data`; on success store the
value under the field in `result`, on any exception raise the wrapping
`ValueError`. -/
def applyTransformsStep (old_data : Record) (r : Record) (fe : String × PyExpr) :
    Except PyError Record :=
  match evalTransform old_data fe.2 with
  | .ok v => .ok (dinsert r fe.1 v)
  | .error exc => .error (.valueError (transformErrMsg fe.1 exc))

/-- `SchemaDelta.apply` (delta.py lines 27-81), with the mutable state made
explicit. Line 29 (`result = data.copy()`) creates a fresh dict; line 32
snapshots it as `old_data`; every subsequent `del` (line 37) and assignment
(lines 67, 71, 77) targets `result`, and the parameter `data` is never
written. The returned pair carries (final contents of the caller's dict,
outcome): the first component witnesses what the caller observes in their own
record after the call, the second is the return value or raised
`ValueError`. -/
def SchemaDelta.applyFull (d : SchemaDelta) (data : Record) : Record × Except PyError Record :=
  let result : Record := data
  let old_data : Record := result
  let result : Record := removeFields d.removed_fields result
  let out : Except PyError Record :=
    d.transformations.foldlM (applyTransformsStep old_data) result
  (data, out)

/-- The return value / raised exception of `SchemaDelta.apply`. -/
def SchemaDelta.apply (d : SchemaDelta) (data : Record) : Except PyError Record :=
  (d.applyFull data).2

/-- `SchemaDelta.reverse` (delta.py lines 83-105): swaps added and removed,
and inverts exactly those transformations whose expression is a bare field
reference to a key of `removed_fields` (`if expr in self.removed_fields`);
every other transformation is silently skipped (`pass`, lines 95-98). -/
def SchemaDelta.reverse (d : SchemaDelta) : SchemaDelta :=
  { added_fields := d.removed_fields
    removed_fields := d.added_fields
    transformations :=
      d.transformations.foldl
        (fun acc fe =>
          match fe.2 with
          | .name n =>
            if containsKey d.removed_fields n then dinsert acc n (.name fe.1) else acc
          | _ => acc)
        []
    metadata := d.metadata }

/-- Nonempty intersection of two key lists (truthiness of `setA & setB`). -/
def hasCommonKey (l1 l2 : List String) : Bool := l1.any fun k => l2.contains k

/-- `SchemaDelta.is_compatible_with` (delta.py lines 107-112): deltas are
compatible when their added-key sets, removed-key sets and transformation-key
sets are pairwise disjoint category by category. -/
def SchemaDelta.is_compatible_with (d : SchemaDelta) (other : SchemaDelta) : Bool :=
  !(hasCommonKey (dkeys d.added_fields) (dkeys other.added_fields) ||
    hasCommonKey (dkeys d.removed_fields) (dkeys other.removed_fields) ||
    hasCommonKey (dkeys d.transformations) (dkeys other.transformations))

/-- The per-subject version dict `self._schemas[subject]`: version label to
delta, in registration (insertion) order. -/
abbrev VDict := List (String × SchemaDelta)

/-- The registry's schema store `self._schemas` (registry.py line 25): subject
to version dict. The `_metadata` and `_compatibility_matrix` stores are
omitted from the state: no operation the claims mention reads either
(`check_compatibility` recomputes from `_get_delta_chain`; metadata never
affects transformation semantics). -/
abbrev Registry := List (String × VDict)

/-- The lexicographic order `sorted()` sorts strings by, as a relation. -/
def pyle (a b : String) : Prop := pyLe a b = true

instance : DecidableRel pyle := fun a b => instDecidableEqBool (pyLe a b) true

/-- Python `sorted(d.keys())`. -/
def sortKeys {α : Type} (m : List (String × α)) : List String :=
  List.insertionSort pyle (dkeys m)

/-- `SchemaRegistry.get_versions` (registry.py lines 122-126): the empty list
for an unknown subject, otherwise `sorted(self._schemas[subject].keys())`. -/
def getVersions (reg : Registry) (subject : String) : List String :=
  match alookup reg subject with
  | none => []
  | some m => sortKeys m

/-- Python `versions.index(v)` (position of the first occurrence). -/
def pyIndex : List String → String → Nat
  | [], _ => 0
  | x :: xs, v => if x = v then 0 else pyIndex xs v + 1

/-- Python slice `l[a:b]` for non-negative bounds. -/
def pySlice {α : Type} (l : List α) (a b : Nat) : List α :=
  (l.drop a).take (b - a)

/-- `self._schemas[subject][v]` for a version known to be registered. -/
def vget (m : VDict) (v : String) : SchemaDelta := (alookup m v).getD {}

/-- `SchemaRegistry._get_delta_chain` (registry.py lines 186-204): over the
lexically sorted version list, the deltas of the versions in the slice
strictly after `from` up to `to` when `from` sorts before `to`, else the
deltas of the slice strictly after `to` up to `from`, reversed in order and
each passed through `reverse()`. -/
def getDeltaChain (reg : Registry) (subject fromV toV : String) : List SchemaDelta :=
  match alookup reg subject with
  | none => []
  | some m =>
    let versions := sortKeys m
    if !(versions.contains fromV) || !(versions.contains toV) then []
    else
      let from_idx := pyIndex versions fromV
      let to_idx := pyIndex versions toV
      if from_idx < to_idx then
        (pySlice versions (from_idx + 1) (to_idx + 1)).map fun v => vget m v
      else
        ((pySlice versions (to_idx + 1) (from_idx + 1)).reverse).map fun v =>
          (vget m v).reverse

/-- `SchemaRegistry.check_compatibility` (registry.py lines 165-184): false
for an unknown subject or version, otherwise true iff `_get_delta_chain`
yields a non-empty chain. -/
def checkCompatibility (reg : Registry) (subject v1 v2 : String) : Bool :=
  match alookup reg subject with
  | none => false
  | some m =>
    if !(containsKey m v1) || !(containsKey m v2) then false
    else (getDeltaChain reg subject v1 v2).length > 0

/-- One step of `transform_data`'s application loop (registry.py lines
157-162): `result = delta.apply(result)` followed by re-deleting the delta's
removed fields from the result. -/
def transformStep (r : Record) (delta : SchemaDelta) : Except PyError Record :=
  match delta.apply r with
  | .error e => .error e
  | .ok r' => .ok (removeFields delta.removed_fields r')

/-- `SchemaRegistry.transform_data` (registry.py lines 128-163): error for an
unknown subject; identity when the versions coincide; for `from_version ==
"v0"` every registered version's delta (in sorted order, skipping `"v0"`) is
applied in turn; otherwise the delta chain is resolved (erroring when empty)
and folded over the record with `apply` plus removed-field deletion. -/
def transformData (reg : Registry) (subject : String) (data : Record)
    (fromV toV : String) : Except PyError Record :=
  match alookup reg subject with
  | none => .error (.valueError ("Subject " ++ subject ++ " not found"))
  | some m =>
    if fromV = toV then .ok data
    else if fromV = "v0" then
      (sortKeys m).foldlM
        (fun r v => if v = "v0" then .ok r else transformStep r (vget m v)) data
    else
      let deltas := getDeltaChain reg subject fromV toV
      if deltas.isEmpty then
        .error (.valueError
          ("No transformation path found from " ++ fromV ++ " to " ++ toV))
      else deltas.foldlM transformStep data

/-- `SchemaRegistry.register_delta` (registry.py lines 49-96), restricted to
the `_schemas` store (the claims never read `_metadata` or the compatibility
matrix, and neither ever affects the other operations): `DuplicateVersion` as
a `ValueError` when the version already exists for the subject, otherwise the
delta is stored under the subject, appended in registration order. -/
def registerDelta (reg : Registry) (subject version : String) (delta : SchemaDelta) :
    Except PyError Registry :=
  let m := (alookup reg subject).getD []
  if containsKey m version then
    .error (.valueError
      ("Schema version " ++ version ++ " already exists for subject " ++ subject))
  else .ok (dinsert reg subject (dinsert m version delta))

/-- Modelled from the spec (§4.3), for comparison with the source's
`_get_delta_chain`: the same chain computation but over the versions in
registration (sequence-number) order — "the deltas of every version strictly
after `from` up to and including `to`, in increasing sequence order", and the
reversed variant for the other direction. The source instead works over the
lexically sorted version list. -/
def specSeqDeltaChain (reg : Registry) (subject fromV toV : String) : List SchemaDelta :=
  match alookup reg subject with
  | none => []
  | some m =>
    let versions := dkeys m
    if !(versions.contains fromV) || !(versions.contains toV) then []
    else
      let from_idx := pyIndex versions fromV
      let to_idx := pyIndex versions toV
      if from_idx < to_idx then
        (pySlice versions (from_idx + 1) (to_idx + 1)).map fun v => vget m v
      else
        ((pySlice versions (to_idx + 1) (from_idx + 1)).reverse).map fun v =>
          (vget m v).reverse

/-- Registry obtained by registering versions "v2", then "v10", then "v1" for
subject "user" (the C1 ordering scenario). -/
def c1Reg : Registry := [("user", [("v2", {}), ("v10", {}), ("v1", {})])]

/-- Delta registered as "v2" in the C2 scenario. -/
def c2d2 : SchemaDelta := { added_fields := [("a", "string")] }

/-- Delta registered as "v10" in the C2 scenario. -/
def c2d10 : SchemaDelta := { added_fields := [("b", "string")] }

/-- Delta registered as "v1" in the C2 scenario. -/
def c2d1 : SchemaDelta := { added_fields := [("c", "string")] }

/-- Registry with versions registered in the order "v2", "v10", "v1", whose
registration order differs from lexical order. -/
def c2Reg : Registry := [("user", [("v2", c2d2), ("v10", c2d10), ("v1", c2d1)])]

/-- The delta of the spec's §8 concrete scenario: split `name` into
`firstName` and `lastName`. -/
def c3Delta : SchemaDelta :=
  { added_fields := [("firstName", "string"), ("lastName", "string")]
    removed_fields := [("name", "string")]
    transformations :=
      [("firstName", .index (.call "split" [.name "name", .strLit " "]) 0),
       ("lastName", .index (.call "split" [.name "name", .strLit " "]) 1)] }

/-- The input record of the spec's §8 concrete scenario. -/
def c3Rec : Record := [("name", .str "John Doe"), ("userId", .int 123)]

/-- The record `apply` produces in the §8 scenario. -/
def c3Out : Record :=
  [("userId", .int 123), ("firstName", .str "John"), ("lastName", .str "Doe")]

/-- A delta that adds a field without giving it a transformation. -/
def c4Delta : SchemaDelta := { added_fields := [("email", "string")] }

/-- An input record without the added field. -/
def c4Rec : Record := [("userId", .int 1)]

/-- C5 scenario, version "v1": base delta. -/
def c5d1 : SchemaDelta := { added_fields := [("first", "string")] }

/-- C5 scenario, version "v2": contains a function-call transformation, hence
not mechanically invertible. -/
def c5d2 : SchemaDelta :=
  { added_fields := [("fullName", "string")]
    removed_fields := [("first", "string")]
    transformations := [("fullName", .call "concat" [.name "first"])] }

/-- C5 scenario, version "v3". -/
def c5d3 : SchemaDelta := { added_fields := [("z", "string")] }

/-- Registry with three versions where going from "v3" back to "v1" requires
reversing the irreversible intermediate delta `c5d2`. -/
def c5Reg : Registry := [("user", [("v1", c5d1), ("v2", c5d2), ("v3", c5d3)])]

/-- C6 scenario, version "v1". -/
def c6d1 : SchemaDelta := { added_fields := [("name", "string")] }

/-- C6 scenario, version "v2": its transformation is a function call, not a
bare reference to a removed field, hence not mechanically invertible. -/
def c6d2 : SchemaDelta :=
  { added_fields := [("fullName", "string")]
    removed_fields := [("name", "string")]
    transformations := [("fullName", .call "concat" [.name "name", .strLit "!"])] }

/-- Registry for the C6 scenario. -/
def c6Reg : Registry := [("user", [("v1", c6d1), ("v2", c6d2)])]

/-- A "v2"-shaped record whose `fullName` cannot be mechanically inverted back
into `name`. -/
def c6Rec : Record := [("fullName", .str "John!")]

/-- A delta that adds field "x". -/
def c9d1 : SchemaDelta := { added_fields := [("x", "string")] }

/-- A delta that removes field "x". -/
def c9d2 : SchemaDelta := { removed_fields := [("x", "string")] }

/-- A delta whose single transformation calls an unregistered function. -/
def c7Delta : SchemaDelta :=
  { added_fields := [("x", "string")]
    transformations := [("x", .call "os_system" [.strLit "rm -rf /"])] }

/-- An input record for the C7 scenario. -/
def c7Rec : Record := [("a", .str "b")]

/-- A delta whose transformation references a missing field through `split`,
so its evaluation fails. -/
def c8Delta : SchemaDelta :=
  { transformations := [("x", .call "split" [.name "missing", .strLit " "])] }

/-- An input record lacking the field the C8 delta's transformation needs. -/
def c8Rec : Record := [("keep", .str "v")]

/-- Witness delta for the amended C4 statement: an added field without a
transformation, alongside an unrelated removal and transformation. -/
def c4wDelta : SchemaDelta :=
  { added_fields := [("email", "string")]
    removed_fields := [("old", "string")]
    transformations := [("x", .strLit "hi")] }

/-- Witness input record for the amended C4 statement. -/
def c4wRec : Record := [("userId", .int 1), ("old", .str "o")]

/-- The output `apply` produces for the C4 witness scenario. -/
def c4wOut : Record := [("userId", .int 1), ("x", .str "hi")]

/-- Witness scenario for amended C6, version "v1". -/
def c6wd1 : SchemaDelta := { added_fields := [("name", "string")] }

/-- Witness scenario for amended C6, version "v2": a bare-reference rename,
which reverse() does invert. -/
def c6wd2 : SchemaDelta :=
  { added_fields := [("email", "string")]
    removed_fields := [("name", "string")]
    transformations := [("email", .name "name")] }

/-- Witness registry for amended C6. -/
def c6wReg : Registry := [("user", [("v1", c6wd1), ("v2", c6wd2)])]

/-! ## Theorems -/

/-! ### The lexicographic order underlying `sorted()` -/

theorem lexLe_refl : ∀ l : List Char, lexLe l l = true
  | [] => rfl
  | a :: as => by simp [lexLe, lexLe_refl as]

theorem lexLe_total : ∀ a b : List Char, lexLe a b = true ∨ lexLe b a = true
  | [], _ => .inl rfl
  | _ :: _, [] => .inr rfl
  | a :: as, b :: bs => by
    by_cases h1 : a.toNat < b.toNat
    · exact .inl (by simp [lexLe, h1])
    · by_cases h2 : b.toNat < a.toNat
      · exact .inr (by simp [lexLe, h2])
      · rcases lexLe_total as bs with h | h
        · exact .inl (by simp [lexLe, h1, h2, h])
        · exact .inr (by simp [lexLe, h1, h2, h])

theorem lexLe_trans :
    ∀ {a b c : List Char}, lexLe a b = true → lexLe b c = true → lexLe a c = true
  | [], _, _, _, _ => rfl
  | _ :: _, [], _, h1, _ => by simp [lexLe] at h1
  | _ :: _, _ :: _, [], _, h2 => by simp [lexLe] at h2
  | a :: as, b :: bs, c :: cs, h1, h2 => by
    simp only [lexLe] at h1 h2 ⊢
    by_cases hab : a.toNat < b.toNat
    · by_cases hbc : b.toNat < c.toNat
      · have hac : a.toNat < c.toNat := by omega
        simp [hac]
      · by_cases hcb : c.toNat < b.toNat
        · rw [if_neg hbc, if_pos hcb] at h2; simp at h2
        · have hac : a.toNat < c.toNat := by omega
          simp [hac]
    · by_cases hba : b.toNat < a.toNat
      · rw [if_neg hab, if_pos hba] at h1; simp at h1
      · rw [if_neg hab, if_neg hba] at h1
        by_cases hbc : b.toNat < c.toNat
        · have hac : a.toNat < c.toNat := by omega
          simp [hac]
        · by_cases hcb : c.toNat < b.toNat
          · rw [if_neg hbc, if_pos hcb] at h2; simp at h2
          · rw [if_neg hbc, if_neg hcb] at h2
            have hac : ¬a.toNat < c.toNat := by omega
            have hca : ¬c.toNat < a.toNat := by omega
            rw [if_neg hac, if_neg hca]
            exact lexLe_trans h1 h2

theorem lexLe_antisymm : ∀ {a b : List Char}, lexLe a b = true → lexLe b a = true → a = b
  | [], [], _, _ => rfl
  | [], _ :: _, _, h2 => by simp [lexLe] at h2
  | _ :: _, [], h1, _ => by simp [lexLe] at h1
  | a :: as, b :: bs, h1, h2 => by
    by_cases hab : a.toNat < b.toNat
    · simp [lexLe, hab, Nat.lt_asymm hab] at h2
    · by_cases hba : b.toNat < a.toNat
      · simp [lexLe, hba, Nat.lt_asymm hba] at h1
      · simp only [lexLe, if_neg hab, if_neg hba] at h1
        simp only [lexLe, if_neg hba, if_neg hab] at h2
        have hc : a = b := Char.ext (UInt32.ext (by
          have hab' : ¬a.val.toNat < b.val.toNat := hab
          have hba' : ¬b.val.toNat < a.val.toNat := hba
          omega))
        rw [hc, lexLe_antisymm h1 h2]

theorem pyLe_refl (a : String) : pyLe a a = true := lexLe_refl _

theorem pyLe_total (a b : String) : pyLe a b = true ∨ pyLe b a = true := lexLe_total _ _

theorem pyLe_trans {a b c : String} :
    pyLe a b = true → pyLe b c = true → pyLe a c = true := lexLe_trans

theorem pyLe_antisymm {a b : String} (h1 : pyLe a b = true) (h2 : pyLe b a = true) :
    a = b := by
  cases a; cases b
  exact congrArg String.mk (lexLe_antisymm h1 h2)

instance : IsTotal String pyle := ⟨pyLe_total⟩

instance : IsTrans String pyle := ⟨fun _ _ _ => pyLe_trans⟩

theorem pyLt_eq_true_iff {a b : String} : pyLt a b = true ↔ pyLe b a = false := by
  simp [pyLt]

theorem pyLe_of_pyLt {a b : String} (h : pyLt a b = true) : pyLe a b = true := by
  rcases pyLe_total a b with h' | h'
  · exact h'
  · rw [pyLt_eq_true_iff.mp h] at h'; cases h'

theorem pyLt_irrefl (a : String) : pyLt a a = false := by
  simp [pyLt, pyLe_refl]

theorem pyLt_of_le_ne {a b : String} (h : pyLe a b = true) (hne : a ≠ b) :
    pyLt a b = true := by
  rw [pyLt_eq_true_iff]
  cases hba : pyLe b a
  · rfl
  · exact absurd (pyLe_antisymm h hba) hne

theorem pyLt_asymm {a b : String} (h : pyLt a b = true) : pyLt b a = false := by
  have := pyLe_of_pyLt h
  simp [pyLt, this]

/-! ### Dictionary and index lemmas -/

theorem mem_dkeys {α : Type} {l : List (String × α)} {k : String} :
    k ∈ dkeys l ↔ containsKey l k = true := by
  induction l with
  | nil => simp [dkeys, containsKey, alookup]
  | cons p rest ih =>
    cases p with
    | mk k' v =>
      by_cases h : k' = k
      · subst h
        simp [dkeys, containsKey, alookup]
      · simp [dkeys, containsKey, alookup, h, Ne.symm h] at ih ⊢
        exact ih

theorem contains_dkeys {α : Type} (l : List (String × α)) (k : String) :
    (dkeys l).contains k = containsKey l k := by
  cases hck : containsKey l k
  · cases hcc : (dkeys l).contains k
    · rfl
    · exact absurd (mem_dkeys.mp (List.elem_iff.mp hcc)) (by simp [hck])
  · exact List.elem_iff.mpr (mem_dkeys.mpr hck)

theorem pyIndex_lt_length {l : List String} {v : String} (h : v ∈ l) :
    pyIndex l v < l.length := by
  induction l with
  | nil => cases h
  | cons x xs ih =>
    by_cases hx : x = v
    · simp [pyIndex, hx]
    · rcases List.mem_cons.mp h with h' | h'
      · exact absurd h'.symm hx
      · simp only [pyIndex, if_neg hx, List.length_cons]
        exact Nat.succ_lt_succ (ih h')

theorem get_pyIndex {l : List String} {v : String} (hmem : v ∈ l)
    (hlt : pyIndex l v < l.length) : l.get ⟨pyIndex l v, hlt⟩ = v := by
  induction l with
  | nil => cases hmem
  | cons x xs ih =>
    by_cases hx : x = v
    · simp [pyIndex, hx]
    · have hv : v ∈ xs := by
        rcases List.mem_cons.mp hmem with h' | h'
        · exact absurd h'.symm hx
        · exact h'
      simp only [pyIndex, if_neg hx]
      exact ih hv (Nat.lt_of_succ_lt_succ (by simpa [pyIndex, if_neg hx] using hlt))

theorem pyIndex_inj {l : List String} {v w : String} (hv : v ∈ l) (hw : w ∈ l)
    (h : pyIndex l v = pyIndex l w) : v = w := by
  have h1 := get_pyIndex hv (pyIndex_lt_length hv)
  have h2 := get_pyIndex hw (pyIndex_lt_length hw)
  rw [← h1, ← h2]
  exact congrArg l.get (Fin.ext h)

theorem sortKeys_sorted {α : Type} (m : List (String × α)) :
    List.Sorted pyle (sortKeys m) :=
  List.sorted_insertionSort pyle (dkeys m)

theorem sortKeys_perm {α : Type} (m : List (String × α)) :
    (sortKeys m).Perm (dkeys m) :=
  List.perm_insertionSort pyle (dkeys m)

theorem mem_sortKeys {α : Type} {m : List (String × α)} {k : String} :
    k ∈ sortKeys m ↔ containsKey m k = true := by
  rw [(sortKeys_perm m).mem_iff, mem_dkeys]

/-! ### Chain length -/

theorem getDeltaChain_length_pos {reg : Registry} {subject fromV toV : String}
    {m : VDict} (hm : alookup reg subject = some m)
    (hf : fromV ∈ sortKeys m) (ht : toV ∈ sortKeys m) :
    0 < (getDeltaChain reg subject fromV toV).length ↔ fromV ≠ toV := by
  have hcf : (sortKeys m).contains fromV = true := List.elem_iff.mpr hf
  have hct : (sortKeys m).contains toV = true := List.elem_iff.mpr ht
  have hflt := pyIndex_lt_length hf
  have htlt := pyIndex_lt_length ht
  unfold getDeltaChain
  rw [hm]
  simp only [hcf, hct, Bool.not_true, Bool.or_self, Bool.false_eq_true, if_false]
  by_cases hfi : pyIndex (sortKeys m) fromV < pyIndex (sortKeys m) toV
  · rw [if_pos hfi]
    simp only [List.length_map, pySlice, List.length_take, List.length_drop]
    constructor
    · intro _ heq
      rw [heq] at hfi
      exact Nat.lt_irrefl _ hfi
    · intro _
      omega
  · rw [if_neg hfi]
    simp only [List.length_map, List.length_reverse, pySlice, List.length_take,
      List.length_drop]
    constructor
    · intro hpos heq
      rw [heq] at hpos
      omega
    · intro hne
      have : pyIndex (sortKeys m) fromV ≠ pyIndex (sortKeys m) toV := fun h =>
        hne (pyIndex_inj hf ht h)
      omega

/-- C1 (amended): `get_versions` returns the subject's registered versions in
lexically sorted string order — a sorted permutation of the registered
version set — not in registration (sequence) order. -/
theorem C1_amended (reg : Registry) (subject : String) :
    List.Sorted pyle (getVersions reg subject) ∧
    (getVersions reg subject).Perm (dkeys ((alookup reg subject).getD [])) := by
  unfold getVersions
  rcases h : alookup reg subject with _ | m
  · exact ⟨List.sorted_nil, List.Perm.refl _⟩
  · exact ⟨sortKeys_sorted m, sortKeys_perm m⟩

/-- Strictly increasing entries: sortedness plus distinctness. -/
theorem pairwise_pyLt {l : List String} (hs : List.Sorted pyle l) (hn : l.Nodup) :
    l.Pairwise fun a b => pyLt a b = true :=
  (hs.and hn).imp fun h => pyLt_of_le_ne h.1 h.2

/-- In a strictly increasing list, the elements `≤ l[j]` are exactly the first
`j + 1`. -/
theorem filter_le_eq_take :
    ∀ {l : List String}, (l.Pairwise fun a b => pyLt a b = true) →
      ∀ {j : Nat} (hj : j < l.length),
        (l.filter fun v => pyLe v (l.get ⟨j, hj⟩)) = l.take (j + 1) := by
  intro l
  induction l with
  | nil => intro _ j hj; exact absurd hj (Nat.not_lt_zero j)
  | cons x xs ih =>
    intro hp j hj
    obtain ⟨hx, hp'⟩ := List.pairwise_cons.mp hp
    cases j with
    | zero =>
      have hhead : pyLe x ((x :: xs).get ⟨0, hj⟩) = true := pyLe_refl x
      simp only [List.filter_cons, hhead, if_true]
      have : (xs.filter fun v => pyLe v ((x :: xs).get ⟨0, hj⟩)) = [] := by
        refine List.filter_eq_nil_iff.mpr fun v hv => ?_
        have hle : pyLe v x = false := pyLt_eq_true_iff.mp (hx v hv)
        show ¬pyLe v x = true
        simp [hle]
      rw [this]
      rfl
    | succ jj =>
      have hj' : jj < xs.length := Nat.lt_of_succ_lt_succ hj
      have hget : (x :: xs).get ⟨jj + 1, hj⟩ = xs.get ⟨jj, hj'⟩ := rfl
      have hhead : pyLe x ((x :: xs).get ⟨jj + 1, hj⟩) = true := by
        rw [hget]
        exact pyLe_of_pyLt (hx _ (xs.get_mem _ _))
      simp only [List.filter_cons, hhead, if_true]
      rw [show (jj + 1 + 1) = jj + 1 + 1 from rfl, List.take_succ_cons]
      congr 1
      rw [show (fun v => pyLe v ((x :: xs).get ⟨jj + 1, hj⟩)) =
          (fun v => pyLe v (xs.get ⟨jj, hj'⟩)) from rfl]
      exact ih hp' hj'

/-- In a strictly increasing list, the elements strictly after `l[i]` and up
to `l[j]` are exactly the slice `l[i+1 : j+1]`. -/
theorem filter_between_eq_slice :
    ∀ {l : List String}, (l.Pairwise fun a b => pyLt a b = true) →
      ∀ {i j : Nat} (hi : i < l.length) (hj : j < l.length), i < j →
        (l.filter fun v => pyLt (l.get ⟨i, hi⟩) v && pyLe v (l.get ⟨j, hj⟩)) =
          pySlice l (i + 1) (j + 1) := by
  intro l
  induction l with
  | nil => intro _ i j hi _ _; exact absurd hi (Nat.not_lt_zero i)
  | cons x xs ih =>
    intro hp i j hi hj hij
    obtain ⟨hx, hp'⟩ := List.pairwise_cons.mp hp
    cases i with
    | zero =>
      cases j with
      | zero => exact absurd hij (Nat.lt_irrefl 0)
      | succ jj =>
        have hj' : jj < xs.length := Nat.lt_of_succ_lt_succ hj
        have hhead : (pyLt ((x :: xs).get ⟨0, hi⟩) x &&
            pyLe x ((x :: xs).get ⟨jj + 1, hj⟩)) = false := by
          rw [show (x :: xs).get ⟨0, hi⟩ = x from rfl, pyLt_irrefl, Bool.false_and]
        simp only [List.filter_cons, hhead, Bool.false_eq_true, if_false]
        have hcongr :
            (xs.filter fun v => pyLt ((x :: xs).get ⟨0, hi⟩) v &&
                pyLe v ((x :: xs).get ⟨jj + 1, hj⟩)) =
              xs.filter fun v => pyLe v (xs.get ⟨jj, hj'⟩) := by
          refine List.filter_congr fun v hv => ?_
          have hxv : pyLt x v = true := hx v hv
          show (pyLt x v && pyLe v (xs.get ⟨jj, hj'⟩)) =
            pyLe v (xs.get ⟨jj, hj'⟩)
          rw [hxv, Bool.true_and]
        rw [hcongr, filter_le_eq_take hp' hj']
        rfl
    | succ ii =>
      cases j with
      | zero => exact absurd hij (by omega)
      | succ jj =>
        have hi' : ii < xs.length := Nat.lt_of_succ_lt_succ hi
        have hj' : jj < xs.length := Nat.lt_of_succ_lt_succ hj
        have hhead : (pyLt ((x :: xs).get ⟨ii + 1, hi⟩) x &&
            pyLe x ((x :: xs).get ⟨jj + 1, hj⟩)) = false := by
          have hasym : pyLt (xs.get ⟨ii, hi'⟩) x = false :=
            pyLt_asymm (hx _ (xs.get_mem _ _))
          rw [show (x :: xs).get ⟨ii + 1, hi⟩ = xs.get ⟨ii, hi'⟩ from rfl,
            hasym, Bool.false_and]
        simp only [List.filter_cons, hhead, Bool.false_eq_true, if_false]
        have heq : (xs.filter fun v => pyLt ((x :: xs).get ⟨ii + 1, hi⟩) v &&
            pyLe v ((x :: xs).get ⟨jj + 1, hj⟩)) =
            pySlice xs (ii + 1) (jj + 1) := by
          rw [show (fun v => pyLt ((x :: xs).get ⟨ii + 1, hi⟩) v &&
              pyLe v ((x :: xs).get ⟨jj + 1, hj⟩)) =
              (fun v => pyLt (xs.get ⟨ii, hi'⟩) v && pyLe v (xs.get ⟨jj, hj'⟩))
            from rfl]
          exact ih hp' hi' hj' (Nat.lt_of_succ_lt_succ hij)
        rw [heq]
        simp only [pySlice, List.drop_succ_cons]
        congr 1
        omega

/-- C2 (amended): the resolver's chain is computed over the **lexically
sorted** version list, not the registration-sequence order: when `from` sorts
before `to`, the chain is the deltas of every version lexically strictly
after `from` up to and including `to`, in increasing lexical order; when
`from` sorts after `to`, it is the deltas of every version lexically strictly
after `to` up to and including `from`, in decreasing lexical order, each
passed through `reverse()`; and (away from the `from == to` and
`from == "v0"` special cases) `transform_data` folds exactly this chain, in
order, over the record — each step applying the delta and re-deleting its
removed fields. -/
theorem C2_amended (reg : Registry) (subject fromV toV : String) (m : VDict)
    (hm : alookup reg subject = some m) (hnd : (dkeys m).Nodup)
    (hf : fromV ∈ sortKeys m) (ht : toV ∈ sortKeys m) :
    (pyIndex (sortKeys m) fromV < pyIndex (sortKeys m) toV →
      getDeltaChain reg subject fromV toV =
        ((sortKeys m).filter fun v => pyLt fromV v && pyLe v toV).map
          fun v => vget m v) ∧
    (pyIndex (sortKeys m) toV < pyIndex (sortKeys m) fromV →
      getDeltaChain reg subject fromV toV =
        (((sortKeys m).filter fun v => pyLt toV v && pyLe v fromV).reverse).map
          fun v => (vget m v).reverse) ∧
    (fromV ≠ toV → fromV ≠ "v0" →
      ∀ data, transformData reg subject data fromV toV =
        (getDeltaChain reg subject fromV toV).foldlM transformStep data) := by
  have hnod : (sortKeys m).Nodup := ((sortKeys_perm m).nodup_iff).mpr hnd
  have hpw := pairwise_pyLt (sortKeys_sorted m) hnod
  have hcf : (sortKeys m).contains fromV = true := List.elem_iff.mpr hf
  have hct : (sortKeys m).contains toV = true := List.elem_iff.mpr ht
  have hflt := pyIndex_lt_length hf
  have htlt := pyIndex_lt_length ht
  have hgf := get_pyIndex hf hflt
  have hgt := get_pyIndex ht htlt
  refine ⟨?_, ?_, ?_⟩
  · intro hlt
    have hfl2 := filter_between_eq_slice hpw hflt htlt hlt
    rw [hgf, hgt] at hfl2
    unfold getDeltaChain
    rw [hm]
    simp only [hcf, hct, Bool.not_true, Bool.or_self, Bool.false_eq_true, if_false]
    rw [if_pos hlt, ← hfl2]
  · intro hlt
    have hfl2 := filter_between_eq_slice hpw htlt hflt hlt
    rw [hgf, hgt] at hfl2
    unfold getDeltaChain
    rw [hm]
    simp only [hcf, hct, Bool.not_true, Bool.or_self, Bool.false_eq_true, if_false]
    rw [if_neg (by omega), ← hfl2]
  · intro hne hv0 data
    have hlen := (getDeltaChain_length_pos hm hf ht).mpr hne
    have hie : (getDeltaChain reg subject fromV toV).isEmpty = false := by
      cases hq : getDeltaChain reg subject fromV toV with
      | nil => rw [hq] at hlen; simp at hlen
      | cons a l => rfl
    unfold transformData
    rw [hm]
    simp only [if_neg hne, if_neg hv0, hie, Bool.false_eq_true, if_false]

/-- C5 (amended): `check_compatibility` returns true iff the subject is
registered, both versions are registered for it, and the two versions differ
(equivalently, the delta chain is non-empty); whether any delta on the path
must be reversed, or is invertible, is never examined. -/
theorem C5_amended (reg : Registry) (subject v1 v2 : String) :
    checkCompatibility reg subject v1 v2 = true ↔
      ∃ m, alookup reg subject = some m ∧ containsKey m v1 = true ∧
        containsKey m v2 = true ∧ v1 ≠ v2 := by
  rcases h : alookup reg subject with _ | m
  · simp [checkCompatibility, h]
  · constructor
    · intro htrue
      simp only [checkCompatibility, h] at htrue
      by_cases h1 : containsKey m v1 = true
      · by_cases h2 : containsKey m v2 = true
        · refine ⟨m, rfl, h1, h2, ?_⟩
          simp only [h1, h2, Bool.not_true, Bool.or_self, Bool.false_eq_true,
            if_false, gt_iff_lt, decide_eq_true_eq] at htrue
          exact (getDeltaChain_length_pos h (mem_sortKeys.mpr h1)
            (mem_sortKeys.mpr h2)).mp htrue
        · simp [h1, h2] at htrue
      · simp [h1] at htrue
    · rintro ⟨m', hm', h1, h2, hne⟩
      obtain rfl : m' = m := (Option.some.inj hm').symm
      simp only [checkCompatibility, h, h1, h2, Bool.not_true, Bool.or_self,
        Bool.false_eq_true, if_false, gt_iff_lt, decide_eq_true_eq]
      exact (getDeltaChain_length_pos h (mem_sortKeys.mpr h1)
        (mem_sortKeys.mpr h2)).mpr hne

/-- C1 (counterexample): after registering versions "v2", then "v10", then
"v1" for subject "user", `get_versions` returns `["v1", "v10", "v2"]` — the
lexically sorted order — and not the registration order `["v2", "v10", "v1"]`
the claim requires. -/
theorem C1_counterexample :
    ((registerDelta [] "user" "v2" {}).bind fun r =>
      (registerDelta r "user" "v10" {}).bind fun r =>
        registerDelta r "user" "v1" {}) = .ok c1Reg ∧
    getVersions c1Reg "user" = ["v1", "v10", "v2"] ∧
    (["v1", "v10", "v2"] : List String) ≠ ["v2", "v10", "v1"] :=
  ⟨rfl, rfl, by decide⟩

/-- C2 (counterexample): with versions registered in the order "v2", "v10",
"v1", the chain the code computes for `from = "v2"`, `to = "v10"` is the
reverse of the "v2" delta (because "v2" sorts lexically after "v10"), whereas
the chain the claim describes — sequence order, where "v2" precedes "v10" —
is the forward "v10" delta; the two chains differ. -/
theorem C2_counterexample :
    getDeltaChain c2Reg "user" "v2" "v10" = [c2d2.reverse] ∧
    specSeqDeltaChain c2Reg "user" "v2" "v10" = [c2d10] ∧
    getDeltaChain c2Reg "user" "v2" "v10" ≠ specSeqDeltaChain c2Reg "user" "v2" "v10" :=
  ⟨rfl, rfl, fun h => by
    have h2 := congrArg (List.map fun d => d.added_fields) h
    exact absurd h2 (by decide)⟩

/-- C3: applying the delta `added = {firstName, lastName}`,
`removed = {name}`, `transformations = {firstName: split(name," ")[0],
lastName: split(name," ")[1]}` to `{name: "John Doe", userId: 123}` yields
exactly `{firstName: "John", lastName: "Doe", userId: 123}`, with the key
`name` absent from the output. -/
theorem C3_split_scenario :
    (c3Delta.applyFull c3Rec).2 = .ok c3Out ∧
    alookup c3Out "firstName" = some (.str "John") ∧
    alookup c3Out "lastName" = some (.str "Doe") ∧
    alookup c3Out "userId" = some (.int 123) ∧
    containsKey c3Out "name" = false ∧
    c3Out.length = 3 :=
  ⟨rfl, rfl, rfl, rfl, rfl, rfl⟩

/-- C4 (counterexample): "email" is listed in the delta's `added_fields` and
has no transformation, yet a successful `apply` returns the input unchanged —
the added field is silently omitted from the output, not bound to any
"absent" marker. -/
theorem C4_counterexample :
    containsKey c4Delta.added_fields "email" = true ∧
    containsKey c4Delta.transformations "email" = false ∧
    (c4Delta.applyFull c4Rec).2 = .ok c4Rec ∧
    containsKey c4Rec "email" = false :=
  ⟨rfl, rfl, rfl, rfl⟩

/-- C5 (counterexample): transforming from "v3" back to "v1" requires
reversing the intermediate delta `c5d2`, whose transformation is a function
call (irreversible), so the claim requires `check_compatibility` to return
false — but the code returns true (it never inspects invertibility). -/
theorem C5_counterexample :
    checkCompatibility c5Reg "user" "v3" "v1" = true ∧
    getDeltaChain c5Reg "user" "v3" "v1" = [c5d3.reverse, c5d2.reverse] ∧
    c5d2.transformations = [("fullName", .call "concat" [.name "first"])] :=
  ⟨rfl, rfl, rfl⟩

/-- C6 (counterexample): the chain from "v2" back to "v1" contains the
reverse of `c6d2`, whose transformation is a function call and hence not
mechanically invertible — the claim requires `IrreversibleTransformation` —
yet `transform_data` succeeds, silently dropping the unrecoverable field and
returning the empty record. -/
theorem C6_counterexample :
    transformData c6Reg "user" c6Rec "v2" "v1" = .ok [] ∧
    getDeltaChain c6Reg "user" "v2" "v1" = [c6d2.reverse] ∧
    c6d2.transformations = [("fullName", .call "concat" [.name "name", .strLit "!"])] :=
  ⟨rfl, rfl, rfl⟩

/-! ### Dictionary update lemmas for the apply loops -/

theorem alookup_eq_none_of_not_contains {α : Type} {l : List (String × α)}
    {k : String} (h : containsKey l k = false) : alookup l k = none := by
  cases ho : alookup l k
  · rfl
  · rw [containsKey, ho] at h; cases h

theorem alookup_dinsert {α : Type} :
    ∀ (l : List (String × α)) (f : String) (v : α) (k : String),
      alookup (dinsert l f v) k = if f = k then some v else alookup l k
  | [], f, v, k => by simp [dinsert, alookup]
  | (k', v') :: rest, f, v, k => by
    by_cases hf : k' = f
    · subst hf
      by_cases hk : k' = k
      · subst hk
        simp [dinsert, alookup]
      · simp [dinsert, alookup, hk]
    · by_cases hk : k' = k
      · subst hk
        have hfk : ¬f = k' := fun h => hf h.symm
        simp [dinsert, alookup, hf, hfk]
      · simp [dinsert, alookup, hf, hk, alookup_dinsert rest f v k]

theorem containsKey_dinsert_ne {α : Type} {l : List (String × α)} {f k : String}
    (v : α) (h : k ≠ f) : containsKey (dinsert l f v) k = containsKey l k := by
  have hfk : ¬f = k := fun hh => h hh.symm
  simp only [containsKey, alookup_dinsert, if_neg hfk]

theorem mem_dinsert {α : Type} :
    ∀ {l : List (String × α)} {f : String} {v : α} {p : String × α},
      p ∈ dinsert l f v → p = (f, v) ∨ p ∈ l := by
  intro l
  induction l with
  | nil => intro f v p hp; simp [dinsert] at hp; exact .inl hp
  | cons q rest ih =>
    intro f v p hp
    obtain ⟨k', v'⟩ := q
    by_cases hf : k' = f
    · subst hf
      simp only [dinsert, if_pos rfl] at hp
      rcases List.mem_cons.mp hp with h | h
      · exact .inl h
      · exact .inr (List.mem_cons_of_mem _ h)
    · simp only [dinsert, if_neg hf] at hp
      rcases List.mem_cons.mp hp with h | h
      · exact .inr (h ▸ List.mem_cons_self _ _)
      · rcases ih h with h' | h'
        · exact .inl h'
        · exact .inr (List.mem_cons_of_mem _ h')

theorem derase_sublist {α : Type} :
    ∀ (l : List (String × α)) (f : String), (derase l f).Sublist l
  | [], _ => List.Sublist.refl []
  | (k', v') :: rest, f => by
    by_cases hf : k' = f
    · simp only [derase, if_pos hf]
      exact List.sublist_cons_self _ _
    · simp only [derase, if_neg hf]
      exact List.Sublist.cons₂ _ (derase_sublist rest f)

theorem containsKey_derase {α : Type} :
    ∀ {l : List (String × α)}, (dkeys l).Nodup → ∀ (f k : String),
      containsKey (derase l f) k = (containsKey l k && !(k == f)) := by
  intro l
  induction l with
  | nil => intro _ f k; simp [derase, containsKey, alookup]
  | cons q rest ih =>
    intro hnd f k
    obtain ⟨k', v⟩ := q
    have hnd' : (dkeys rest).Nodup := (List.nodup_cons.mp hnd).2
    have hhead : k' ∉ dkeys rest := (List.nodup_cons.mp hnd).1
    by_cases hkf : k' = f
    · subst hkf
      simp only [derase, if_pos rfl]
      by_cases hk : k = k'
      · subst hk
        have hmiss : containsKey rest k = false := by
          cases hc : containsKey rest k
          · rfl
          · exact absurd (mem_dkeys.mpr hc) hhead
        have hnone := alookup_eq_none_of_not_contains hmiss
        simp [hmiss, containsKey, alookup, hnone]
      · have hk' : ¬k' = k := fun h => hk h.symm
        have hbeq : (k == k') = false := beq_eq_false_iff_ne.mpr hk
        simp [containsKey, alookup, hk', hbeq]
    · simp only [derase, if_neg hkf]
      by_cases hk : k' = k
      · subst hk
        have hbeq : (k' == f) = false := beq_eq_false_iff_ne.mpr hkf
        simp [containsKey, alookup, hbeq]
      · simp only [containsKey, alookup, if_neg hk]
        exact ih hnd' f k

theorem containsKey_removeFields :
    ∀ (fs : List (String × String)) {r : Record}, (dkeys r).Nodup → ∀ (k : String),
      containsKey (removeFields fs r) k =
        (containsKey r k && !((dkeys fs).contains k)) := by
  intro fs
  induction fs with
  | nil => intro r _ k; simp [removeFields, dkeys]
  | cons p fs' ih =>
    intro r hnd k
    have hstep : removeFields (p :: fs') r =
        removeFields fs' (if containsKey r p.1 then derase r p.1 else r) := rfl
    rw [hstep]
    have hnd' : (dkeys (if containsKey r p.1 then derase r p.1 else r)).Nodup := by
      by_cases hc : containsKey r p.1 = true
      · rw [if_pos hc]
        exact ((derase_sublist r p.1).map Prod.fst).nodup hnd
      · rw [if_neg hc]; exact hnd
    rw [ih hnd' k]
    have hck : containsKey (if containsKey r p.1 then derase r p.1 else r) k =
        (containsKey r k && !(k == p.1)) := by
      by_cases hc : containsKey r p.1 = true
      · rw [if_pos hc]
        exact containsKey_derase hnd p.1 k
      · rw [if_neg hc]
        by_cases hkp : k = p.1
        · have hcr : containsKey r k = false := by
            rw [hkp]
            cases hcc : containsKey r p.1
            · rfl
            · exact absurd hcc hc
          simp [hcr]
        · have hbeq : (k == p.1) = false := beq_eq_false_iff_ne.mpr hkp
          simp [hbeq]
    rw [hck]
    have hcons : (dkeys (p :: fs')).contains k =
        ((k == p.1) || (dkeys fs').contains k) := by
      simp [dkeys, List.contains_cons]
    rw [hcons]
    cases containsKey r k <;> cases (k == p.1) <;> cases (dkeys fs').contains k <;> rfl

theorem containsKey_foldTransforms {od : Record} :
    ∀ {ts : List (String × PyExpr)} {r₀ out : Record} {k : String},
      ts.foldlM (applyTransformsStep od) r₀ = .ok out →
      (dkeys ts).contains k = false →
      containsKey out k = containsKey r₀ k := by
  intro ts
  induction ts with
  | nil =>
    intro r₀ out k h _
    rw [← Except.ok.inj h]
  | cons g rest ih =>
    intro r₀ out k h hc
    have hc1 : (k == g.1) = false := by
      cases hq : (k == g.1)
      · rfl
      · rw [show dkeys (g :: rest) = g.1 :: dkeys rest from rfl,
          List.contains_cons, hq, Bool.true_or] at hc
        cases hc
    have hc2 : (dkeys rest).contains k = false := by
      rw [show dkeys (g :: rest) = g.1 :: dkeys rest from rfl,
        List.contains_cons, hc1, Bool.false_or] at hc
      exact hc
    rw [List.foldlM_cons] at h
    cases hg : evalTransform od g.2 with
    | error e =>
      have hstep : applyTransformsStep od r₀ g =
          .error (.valueError (transformErrMsg g.1 e)) := by
        simp [applyTransformsStep, hg]
      rw [hstep] at h
      have h2 : (Except.error (PyError.valueError (transformErrMsg g.1 e)) :
          Except PyError Record) = Except.ok out := h
      exact Except.noConfusion h2
    | ok v =>
      have hstep : applyTransformsStep od r₀ g = .ok (dinsert r₀ g.1 v) := by
        simp [applyTransformsStep, hg]
      rw [hstep] at h
      have h' : rest.foldlM (applyTransformsStep od) (dinsert r₀ g.1 v) = .ok out := h
      rw [ih h' hc2]
      exact containsKey_dinsert_ne v (beq_eq_false_iff_ne.mp hc1)

/-- C4 (amended): `apply` never initializes added fields: for every delta and
(duplicate-free) record, a field listed in `added_fields` that has no
transformation is present in a successful output exactly when it is present
in the input and not removed — it passes through or is absent, never bound to
an "absent" marker. -/
theorem C4_amended (d : SchemaDelta) (data out : Record) (f : String)
    (hnd : (dkeys data).Nodup)
    (hok : (d.applyFull data).2 = .ok out)
    (_hadd : containsKey d.added_fields f = true)
    (htr : containsKey d.transformations f = false) :
    containsKey out f = (containsKey data f && !(containsKey d.removed_fields f)) := by
  have hok' : d.transformations.foldlM (applyTransformsStep data)
      (removeFields d.removed_fields data) = .ok out := hok
  have hc : (dkeys d.transformations).contains f = false := by
    rw [contains_dkeys]; exact htr
  rw [containsKey_foldTransforms hok' hc, containsKey_removeFields _ hnd,
    contains_dkeys]

/-- Witness for amended C4: the added field "email" of `c4wDelta` is absent
from both the input `c4wRec` and the successful output. -/
theorem C4_amended_witness :
    containsKey c4wOut "email" =
      (containsKey c4wRec "email" && !(containsKey c4wDelta.removed_fields "email")) :=
  C4_amended c4wDelta c4wRec c4wOut "email" (by decide) rfl rfl rfl

/-- C9 (counterexample): `c9d1` adds field "x" while `c9d2` removes field "x"
— a cross-category overlap the claim says must make the deltas incompatible —
yet `is_compatible_with` returns true, because the code only intersects each
category with the same category. -/
theorem C9_counterexample :
    c9d1.is_compatible_with c9d2 = true ∧
    containsKey c9d1.added_fields "x" = true ∧
    containsKey c9d2.removed_fields "x" = true :=
  ⟨rfl, rfl, rfl⟩

theorem hasCommonKey_eq_false_iff (l1 l2 : List String) :
    hasCommonKey l1 l2 = false ↔ ∀ k, ¬(k ∈ l1 ∧ k ∈ l2) := by
  constructor
  · intro h k hk
    have htrue : hasCommonKey l1 l2 = true := by
      simp only [hasCommonKey, List.any_eq_true]
      exact ⟨k, hk.1, List.elem_iff.mpr hk.2⟩
    rw [h] at htrue
    cases htrue
  · intro h
    cases hc : hasCommonKey l1 l2
    · rfl
    · simp only [hasCommonKey, List.any_eq_true] at hc
      obtain ⟨k, hk1, hk2⟩ := hc
      exact absurd ⟨hk1, List.elem_iff.mp hk2⟩ (h k)

/-- C9 (amended): `is_compatible_with` returns true iff the two deltas'
key sets are disjoint within each category separately — added against added,
removed against removed, transformations against transformations; overlaps
across categories (such as one delta adding a field the other removes) are
not examined and do not make the deltas incompatible. -/
theorem C9_amended (d1 d2 : SchemaDelta) :
    d1.is_compatible_with d2 = true ↔
      (∀ k, ¬(k ∈ dkeys d1.added_fields ∧ k ∈ dkeys d2.added_fields)) ∧
      (∀ k, ¬(k ∈ dkeys d1.removed_fields ∧ k ∈ dkeys d2.removed_fields)) ∧
      (∀ k, ¬(k ∈ dkeys d1.transformations ∧ k ∈ dkeys d2.transformations)) := by
  rw [show d1.is_compatible_with d2 =
      !(hasCommonKey (dkeys d1.added_fields) (dkeys d2.added_fields) ||
        hasCommonKey (dkeys d1.removed_fields) (dkeys d2.removed_fields) ||
        hasCommonKey (dkeys d1.transformations) (dkeys d2.transformations))
    from rfl]
  rw [Bool.not_eq_true', Bool.or_eq_false_iff, Bool.or_eq_false_iff]
  rw [hasCommonKey_eq_false_iff, hasCommonKey_eq_false_iff, hasCommonKey_eq_false_iff]
  constructor
  · rintro ⟨⟨h1, h2⟩, h3⟩
    exact ⟨h1, h2, h3⟩
  · rintro ⟨h1, h2, h3⟩
    exact ⟨⟨h1, h2⟩, h3⟩

/-! ### Reverse direction: silent dropping of non-invertible transformations -/

theorem reverse_transformations_bare (d : SchemaDelta) :
    ∀ p ∈ d.reverse.transformations, ∃ k, p.2 = PyExpr.name k := by
  suffices h : ∀ (ts : List (String × PyExpr)) (acc : List (String × PyExpr)),
      (∀ p ∈ acc, ∃ k, p.2 = PyExpr.name k) →
      ∀ p ∈ ts.foldl
        (fun acc fe =>
          match fe.2 with
          | .name n =>
            if containsKey d.removed_fields n then dinsert acc n (.name fe.1) else acc
          | _ => acc)
        acc, ∃ k, p.2 = PyExpr.name k by
    intro p hp
    exact h d.transformations [] (by intro p hp; cases hp) p hp
  intro ts
  induction ts with
  | nil => intro acc hacc p hp; exact hacc p hp
  | cons fe rest ih =>
    intro acc hacc p hp
    rw [List.foldl_cons] at hp
    refine ih _ ?_ p hp
    intro q hq
    cases hfe : fe.2 with
    | name n =>
      rw [hfe] at hq
      cases hc : containsKey d.removed_fields n with
      | true =>
        simp only [hc, if_true] at hq
        rcases mem_dinsert hq with h | h
        · exact ⟨fe.1, by rw [h]⟩
        · exact hacc q h
      | false =>
        simp only [hc, Bool.false_eq_true, if_false] at hq
        exact hacc q hq
    | strLit s => rw [hfe] at hq; exact hacc q hq
    | intLit n => rw [hfe] at hq; exact hacc q hq
    | call fn args => rw [hfe] at hq; exact hacc q hq
    | index e i => rw [hfe] at hq; exact hacc q hq

/-- C6 (amended): a reverse-direction chain never fails with
`IrreversibleTransformation` — no such error exists. Instead, every delta in
a reverse-direction chain is a `reverse()` result whose transformations are
only the mechanically inverted bare field renames: any transformation that
was a function call or compound expression has been silently omitted, so
resolving and transforming proceed without error and the unrecoverable field
is dropped. -/
theorem C6_amended (reg : Registry) (subject fromV toV : String) (m : VDict)
    (hm : alookup reg subject = some m)
    (hdir : ¬pyIndex (sortKeys m) fromV < pyIndex (sortKeys m) toV) :
    ∀ d ∈ getDeltaChain reg subject fromV toV,
      ∀ p ∈ d.transformations, ∃ k, p.2 = PyExpr.name k := by
  intro d hd
  simp only [getDeltaChain, hm] at hd
  by_cases hguard :
      (!(sortKeys m).contains fromV || !(sortKeys m).contains toV) = true
  · rw [if_pos hguard] at hd
    cases hd
  · rw [if_neg hguard, if_neg hdir] at hd
    rcases List.mem_map.mp hd with ⟨v, _, hv⟩
    rw [← hv]
    exact reverse_transformations_bare (vget m v)

/-- Witness for amended C6: in the reverse chain of `c6wReg`, the reversed
delta's only transformation is the bare rename `name ↦ email`. -/
theorem C6_amended_witness :
    ∃ k, (("name", PyExpr.name "email") : String × PyExpr).2 = PyExpr.name k :=
  C6_amended c6wReg "user" "v2" "v1" [("v1", c6wd1), ("v2", c6wd2)] rfl
    (by decide) c6wd2.reverse (List.mem_cons_self _ _)
    ("name", PyExpr.name "email") (List.mem_cons_self _ _)

/-! ### Unknown functions and evaluation failure -/

theorem evalTransform_unknown_call (od : Record) (fn : String) (args : List PyExpr)
    (hfn : fn ∉ (["split", "concat"] : List String)) :
    ∃ exc, evalTransform od (.call fn args) = .error exc := by
  have h1 : fn ≠ "split" := fun h => hfn (by rw [h]; exact List.mem_cons_self _ _)
  have h2 : fn ≠ "concat" := fun h => hfn (by rw [h]; simp)
  by_cases hd : fn = "data"
  · subst hd
    have hev : evalTransform od (.call "data" args) =
        args.mapM (evalArgA od) >>= fun _ =>
          Except.error (PyExc.typeError "'dict' object is not callable") := rfl
    cases hargs : args.mapM (evalArgA od) with
    | error e =>
      refine ⟨e, ?_⟩
      rw [hev, hargs]
      rfl
    | ok vs =>
      refine ⟨.typeError "'dict' object is not callable", ?_⟩
      rw [hev, hargs]
      rfl
  · refine ⟨.keyError fn, ?_⟩
    simp [evalTransform, safeEnvLookup, hd, h1, h2]

theorem foldTransforms_error_of_mem {od : Record} :
    ∀ {ts : List (String × PyExpr)} {r₀ : Record} {fe : String × PyExpr},
      fe ∈ ts → (∃ exc, evalTransform od fe.2 = .error exc) →
      ∃ e, ts.foldlM (applyTransformsStep od) r₀ = .error e := by
  intro ts
  induction ts with
  | nil => intro r₀ fe h _; cases h
  | cons g rest ih =>
    intro r₀ fe hmem hex
    rw [List.foldlM_cons]
    cases hg : evalTransform od g.2 with
    | error e =>
      refine ⟨.valueError (transformErrMsg g.1 e), ?_⟩
      have hstep : applyTransformsStep od r₀ g =
          .error (.valueError (transformErrMsg g.1 e)) := by
        simp [applyTransformsStep, hg]
      rw [hstep]
      rfl
    | ok v =>
      rcases List.mem_cons.mp hmem with h | h
      · rcases hex with ⟨exc, hexc⟩
        rw [h, hg] at hexc
        cases hexc
      · obtain ⟨e, he⟩ := @ih (dinsert r₀ g.1 v) fe h hex
        refine ⟨e, ?_⟩
        have hstep : applyTransformsStep od r₀ g = .ok (dinsert r₀ g.1 v) := by
          simp [applyTransformsStep, hg]
        rw [hstep]
        exact he

/-- C7: for every record and delta, a transformation expression whose parsed
body is a call of a function name outside the built-in registry
`{split, concat}` makes `apply` fail with an error rather than executing
anything: the callee is looked up in `safe_env` before any argument is
evaluated, and for a name absent from the environment the lookup itself
raises `KeyError(name)` — the model's `UnknownFunction` failure — which
`apply` wraps into its `ValueError`. The evaluator is a closed total
function over the model's values, so no host behavior is reachable. -/
theorem C7_unknown_function (data : Record) (d : SchemaDelta) (field fn : String)
    (args : List PyExpr) (hmem : (field, PyExpr.call fn args) ∈ d.transformations)
    (hfn : fn ∉ (["split", "concat"] : List String)) :
    (∃ e, (d.applyFull data).2 = .error e) ∧
    (fn ≠ "data" → evalTransform data (.call fn args) = .error (.keyError fn)) := by
  constructor
  · exact foldTransforms_error_of_mem hmem (evalTransform_unknown_call data fn args hfn)
  · intro hd
    have h1 : fn ≠ "split" := fun h => hfn (by rw [h]; exact List.mem_cons_self _ _)
    have h2 : fn ≠ "concat" := fun h => hfn (by rw [h]; simp)
    simp [evalTransform, safeEnvLookup, hd, h1, h2]

/-- Witness for C7: the delta calling the unregistered `os_system` makes
`apply` fail, and the evaluation of that call is exactly the
`KeyError("os_system")` lookup failure. -/
theorem C7_unknown_function_witness :
    (∃ e, (c7Delta.applyFull c7Rec).2 = .error e) ∧
    ("os_system" ≠ "data" →
      evalTransform c7Rec (.call "os_system" [.strLit "rm -rf /"]) =
        .error (.keyError "os_system")) :=
  C7_unknown_function c7Rec c7Delta "x" "os_system" [.strLit "rm -rf /"]
    (List.mem_cons_self _ _) (by decide)

theorem foldTransforms_error_shape {od : Record} :
    ∀ {ts : List (String × PyExpr)} {r₀ : Record} {e : PyError},
      ts.foldlM (applyTransformsStep od) r₀ = .error e →
      ∃ field exp exc, (field, exp) ∈ ts ∧ evalTransform od exp = .error exc ∧
        e = .valueError (transformErrMsg field exc) := by
  intro ts
  induction ts with
  | nil =>
    intro r₀ e h
    exact Except.noConfusion h
  | cons g rest ih =>
    intro r₀ e h
    rw [List.foldlM_cons] at h
    cases hg : evalTransform od g.2 with
    | error exc =>
      have hstep : applyTransformsStep od r₀ g =
          .error (.valueError (transformErrMsg g.1 exc)) := by
        simp [applyTransformsStep, hg]
      rw [hstep] at h
      have h2 : (Except.error (PyError.valueError (transformErrMsg g.1 exc)) :
          Except PyError Record) = Except.error e := h
      exact ⟨g.1, g.2, exc, List.mem_cons_self _ _, hg, (Except.error.inj h2).symm⟩
    | ok v =>
      have hstep : applyTransformsStep od r₀ g = .ok (dinsert r₀ g.1 v) := by
        simp [applyTransformsStep, hg]
      rw [hstep] at h
      have h' : rest.foldlM (applyTransformsStep od) (dinsert r₀ g.1 v) =
          .error e := h
      obtain ⟨f, x, exc, hmem, hev, hsh⟩ := ih h'
      exact ⟨f, x, exc, List.mem_cons_of_mem _ hmem, hev, hsh⟩

/-- C8: `apply` is all-or-nothing. The caller's record object is unchanged
whatever happens (all mutation targets the copy made on entry), and when
`apply` raises, the error is the `ValueError` naming the first transformation
field whose expression evaluation failed — no record, partial or otherwise,
is returned with it. -/
theorem C8_all_or_nothing (d : SchemaDelta) (data : Record) :
    (d.applyFull data).1 = data ∧
    ∀ e, (d.applyFull data).2 = .error e →
      ∃ field exp exc, (field, exp) ∈ d.transformations ∧
        evalTransform data exp = .error exc ∧
        e = .valueError (transformErrMsg field exc) :=
  ⟨rfl, fun _ he => foldTransforms_error_shape he⟩

/-- Witness for C8: evaluating `c8Delta` on `c8Rec` fails (the referenced
field is missing), the caller's record is unchanged, and the raised error
names the failing field `x`. -/
theorem C8_all_or_nothing_witness :
    (c8Delta.applyFull c8Rec).1 = c8Rec ∧
    ∃ field exp exc, (field, exp) ∈ c8Delta.transformations ∧
      evalTransform c8Rec exp = .error exc ∧
      PyError.valueError
          "Error evaluating transformation for field x: name 'missing' is not defined" =
        .valueError (transformErrMsg field exc) :=
  ⟨(C8_all_or_nothing c8Delta c8Rec).1,
    (C8_all_or_nothing c8Delta c8Rec).2
      (.valueError
        "Error evaluating transformation for field x: name 'missing' is not defined")
      rfl⟩

/-- C10: a successful `apply` leaves the caller's input record unchanged —
`result = data.copy()` makes every deletion and assignment act on a fresh
dict, so no top-level key of the input is added, removed or rebound; the
output is a separate record. -/
theorem C10_apply_frame (d : SchemaDelta) (data out : Record)
    (_hok : (d.applyFull data).2 = .ok out) :
    (d.applyFull data).1 = data ∧
    ∀ k, alookup (d.applyFull data).1 k = alookup data k :=
  ⟨rfl, fun _ => rfl⟩

/-- Witness for C10 at a concrete successful application. -/
theorem C10_apply_frame_witness :
    (c4wDelta.applyFull c4wRec).1 = c4wRec ∧
    alookup (c4wDelta.applyFull c4wRec).1 "old" = alookup c4wRec "old" :=
  ⟨(C10_apply_frame c4wDelta c4wRec c4wOut rfl).1,
    (C10_apply_frame c4wDelta c4wRec c4wOut rfl).2 "old"⟩

/-- Witness for amended C2, instantiated at the concrete registry `c5Reg`
with `from = "v1"`, `to = "v3"` and the empty record. -/
theorem C2_amended_witness :
    (pyIndex (sortKeys [("v1", c5d1), ("v2", c5d2), ("v3", c5d3)]) "v1" <
        pyIndex (sortKeys [("v1", c5d1), ("v2", c5d2), ("v3", c5d3)]) "v3" →
      getDeltaChain c5Reg "user" "v1" "v3" =
        ((sortKeys [("v1", c5d1), ("v2", c5d2), ("v3", c5d3)]).filter
            fun v => pyLt "v1" v && pyLe v "v3").map
          fun v => vget [("v1", c5d1), ("v2", c5d2), ("v3", c5d3)] v) ∧
    transformData c5Reg "user" [] "v1" "v3" =
      (getDeltaChain c5Reg "user" "v1" "v3").foldlM transformStep [] := by
  have h := C2_amended c5Reg "user" "v1" "v3"
    [("v1", c5d1), ("v2", c5d2), ("v3", c5d3)] rfl (by decide) (by decide) (by decide)
  exact ⟨h.1, h.2.2 (by decide) (by decide) []⟩

end ASL
